import Mathlib

/-!
# Verification of the OrderBitField repository

Shallow embedding of the three source files of the repository
(`orderbitfield.py`, `deps.py`, `container.py`) and proofs about them.

Conventions of the embedding:
* A Python `bytes` value is a `List Nat` whose entries are the byte values.
* Python functions that can raise are embedded as `Except PyErr _`;
  each Python exception type has a constructor in `PyErr`,
  and a failing `assert` statement is `PyErr.assertFail`.
* Pure functions are embedded as plain Lean functions.
-/

/-- The Python exception kinds raised (or raisable) by the embedded code. -/
inductive PyErr where
  /-- A failing `assert` statement (Python `AssertionError`). -/
  | assertFail
  /-- Python `ValueError`. -/
  | valueErr
  /-- Python `IndexError` (sequence index out of range). -/
  | indexErr
  /-- Python `NameError` (reading a never-assigned local variable). -/
  | nameErr
  /-- Python `NotImplementedError`. -/
  | notImplErr
  /-- Python `AttributeError` (attribute lookup failure). -/
  | attrErr
  /-- `BoundOrderBitFieldMaxSizeException` from `orderbitfield.py`. -/
  | sizeErr
  /-- Artefact of the embedding only: recursion fuel ran out.  Never equal to
  any real outcome of the Python code; theorems never conclude this value. -/
  | fuelOut
  deriving DecidableEq, Repr

/-- Python `bytes` comparison: strict lexicographic order where a strict
prefix is smaller than the longer string. -/
def bytesLt : List Nat → List Nat → Bool
  | [], [] => false
  | [], _ :: _ => true
  | _ :: _, [] => false
  | a :: as, b :: bs => a < b || (a == b && bytesLt as bs)

/-- `val.rstrip(b"\x00")`: remove all trailing zero bytes. -/
def rstripZeros (l : List Nat) : List Nat :=
  (l.reverse.dropWhile (· == 0)).reverse

/-- `OrderBitField.__new__` from `orderbitfield.py`: the stored value is the
input with trailing zero bytes stripped.  (The `ZeroOrderBitFieldWarning`
emitted when the result is empty is a non-fatal diagnostic: the value is
still returned, so the embedding returns it unconditionally.) -/
def OrderBitField_new (val : List Nat) : List Nat :=
  rstripZeros val

/-- Index of the first entry that is `> 0` (the scan loop of
`OrderBitField.before` / `simple_before`). -/
def firstPosIdx : List Nat → Option Nat
  | [] => none
  | b :: rest => if b > 0 then some 0 else (firstPosIdx rest).map (· + 1)

/-- Index of the first entry that is `< bound` (the scan loop of
`OrderBitField.after` / `simple_after`). -/
def firstIdxBelow (bound : Nat) : List Nat → Option Nat
  | [] => none
  | b :: rest => if b < bound then some 0 else ((firstIdxBelow bound rest).map (· + 1))

/-- Index of the first position where the two lists differ, scanning only
`min` of the lengths positions (the `enumerate(zip(start, end))` loop of
`between` / `simple_between`). -/
def findDiffIdx : List Nat → List Nat → Option Nat
  | a :: as, b :: bs => if a ≠ b then some 0 else (findDiffIdx as bs).map (· + 1)
  | _, _ => none

/-- `OrderBitField.before` from `orderbitfield.py` (`_MAX_BYTE = 127`,
`_MAGIC_MIDDLE = 63`): find the first nonzero byte, halve it, append the
magic middle if the half is zero; raise `ValueError` when every byte is 0
(including the empty input). -/
def OrderBitField_before (other : List Nat) : Except PyErr (List Nat) :=
  match firstPosIdx other with
  | none => .error .valueErr
  | some i =>
      let b := other.getD i 0
      let post := b / 2
      let posts := if post = 0 then [post, 63] else [post]
      .ok (OrderBitField_new (other.take i ++ posts))

/-- `OrderBitField.after` from `orderbitfield.py`: find the first byte below
`_MAX_BYTE = 127`, move it up by `ceil((127 - b) / 2)`; when every byte is
`>= 127` append the magic middle `63` instead. -/
def OrderBitField_after (other : List Nat) : List Nat :=
  match firstIdxBelow 127 other with
  | none => OrderBitField_new (other ++ [63])
  | some i =>
      let b := other.getD i 0
      let post := b + (127 - b + 1) / 2
      let posts := if post = b then [post, 63] else [post]
      OrderBitField_new (other.take i ++ posts)

/-- `OrderBitField.between` from `orderbitfield.py`.  The source scans
`zip(start, end)` for the first differing position `i` and returns
`start[:i]` plus the halved midpoint (plus magic middle `63` when the
midpoint equals either boundary byte).  When the loop finds no difference,
the loop variable `i` keeps its last value `min(len) - 1` (it was never
assigned when the zip is empty, so Python raises `NameError` there), the
longer of the two inputs is taken (`max(start, end, key=len)`, which is
`start` on equal lengths), and its byte at `i + 1` is halved — an
out-of-range access raises `IndexError`. -/
def OrderBitField_between (start e : List Nat) : Except PyErr (List Nat) :=
  match findDiffIdx start e with
  | some i =>
      let a := start.getD i 0
      let b := e.getD i 0
      let post := (a + b) / 2
      let posts := if post = a ∨ post = b then [post, 63] else [post]
      .ok (OrderBitField_new (start.take i ++ posts))
  | none =>
      let n := min start.length e.length
      if n = 0 then .error .nameErr
      else
        let i := n - 1
        let mx := if e.length > start.length then e else start
        match mx[i + 1]? with
        | none => .error .indexErr
        | some v =>
            let post := v / 2
            let posts := if post = 0 then [post, 63] else [post]
            .ok (OrderBitField_new (start.take i ++ posts))

/-- `simple_before` from `deps.py` (`MAX_BYTE = 255`, `MAGIC_MIDDLE = 128`).
Unlike `OrderBitField.before` it returns raw bytes (no normalization). -/
def simple_before (other : List Nat) : Except PyErr (List Nat) :=
  match firstPosIdx other with
  | none => .error .valueErr
  | some i =>
      let b := other.getD i 0
      let post := b / 2
      let posts := if post = 0 then [post, 128] else [post]
      .ok (other.take i ++ posts)

/-- `simple_after` from `deps.py` (`MAX_BYTE = 255`, `MAGIC_MIDDLE = 128`). -/
def simple_after (other : List Nat) : List Nat :=
  match firstIdxBelow 255 other with
  | none => other ++ [128]
  | some i =>
      let b := other.getD i 0
      let post := b + (255 - b + 1) / 2
      let posts := if post = b then [post, 128] else [post]
      other.take i ++ posts

/-- `_simple_distribute_indices` from `deps.py`.  The Python source checks, in
order: `ncodes <= 0` (empty result), the assertion `ncodes <= nchars` with
`nchars = mx - mn + 1`, the `ncodes == 2` special case, then places one code
at `pivot = mn + nchars // 2` and for `ncodes > 2` recurses with
`right = (ncodes - 1) // 2` codes on `[pivot+1, mx]` and the remaining
`ncodes - 1 - right` codes on `[mn, pivot-1]`.  The embedding splits the
same logic by the value of `ncodes`; each branch repeats the assertion check
that the source performs before reaching it. -/
def simple_distribute_indices : Nat → Nat → Nat → Except PyErr (List Nat)
  | 0, _, _ => .ok []
  | 1, mn, mx =>
      if 1 ≤ mx + 1 - mn then .ok [mn + (mx + 1 - mn) / 2] else .error .assertFail
  | 2, mn, mx =>
      if 2 ≤ mx + 1 - mn then
        .ok [mn + (mx + 1 - mn - 1) / 3, mn + (2 * (mx + 1 - mn) - 1) / 3]
      else .error .assertFail
  | n + 3, mn, mx =>
      if n + 3 ≤ mx + 1 - mn then
        let pivot := mn + (mx + 1 - mn) / 2
        do
          let lefts ← simple_distribute_indices (n + 2 - (n + 2) / 2) mn (pivot - 1)
          let rights ← simple_distribute_indices ((n + 2) / 2) (pivot + 1) mx
          pure (lefts ++ pivot :: rights)
      else .error .assertFail

/-- `_ponderated_distribute_indices` from `deps.py`.  The result models the
returned `Counter` as a pair: the counting function itself, together with
the sum of all its values (`sum(attrib.values())`, which the caller's
assertion needs).  Per the source: after the three assertions, when
`ncodes > nchars` every digit `c` of `[mn, mx]` first receives
`int(ncodes * ponderation[c] / total)` where `total` is the sum of the
ponderations over the range (`int()` truncation is `Rat.floor` here since
all ponderations used by the caller are nonnegative); the remainder
(`restant`) is then distributed one-per-digit through
`_simple_distribute_indices`.  The Python ponderations are `float`s; they
are embedded as `ℚ` — exact for every value the caller constructs (`1`,
`(256 - s2)/256` and `e2/256` are dyadic rationals with small numerators,
on which Python double arithmetic is exact). -/
def ponderated_distribute_indices (ncodes mn mx : Nat) (pond : Nat → ℚ) :
    Except PyErr ((Nat → Nat) × Nat) :=
  if mn < mx ∧ mx < 256 then
    let nchars := mx + 1 - mn
    let digits := List.range' mn nchars
    let base : Nat → Nat :=
      if ncodes > nchars then
        let total : ℚ := (digits.map pond).sum
        fun c => if c ∈ digits then ((ncodes * pond c) / total).floor.toNat else 0
      else fun _ => 0
    let baseSum := (digits.map base).sum
    do
      let idxs ← simple_distribute_indices (ncodes - baseSum) mn mx
      pure (fun c => base c + idxs.count c, baseSum + idxs.length)
  else .error .assertFail

/-- `generate_codes_v3` from `deps.py`, fuel-indexed to make the recursion
structural; `fuel` is only an upper bound on the recursion depth and is
threaded unchanged otherwise (`PyErr.fuelOut` when exhausted, which no
theorem below ever concludes).  Faithful transcription: `d1`/`e1` are the
first digits of the boundaries (`0`/`MAX_BYTE = 255` when absent, where an
*empty* `code_end` is falsy exactly like `None`); when the count of direct
candidates `e1 - (d1+1) + 1` (an integer, possibly negative) covers
`ncodes`, the direct digits are either the whole range or a
`frozenset` of `_simple_distribute_indices` (deduplication kept via
`dedup`); otherwise all direct digits are used and the remaining codes are
distributed over leading digits `[d1, longer_max]` by
`_ponderated_distribute_indices` with the ponderation of slot `e1` set from
the second digit of `code_start` and then (overwriting, as in the source)
from the second digit of `code_end`; `longer_max` excludes `e1` only when
`code_end` is a single digit.  After the source's assertion
`sum(longer.values()) + len(direct) == ncodes`, codes are emitted per
leading digit `c` in `[d1, e1]`: the direct code `prefixe + [c]` first,
then the recursive codes with the boundary tails (a boundary is passed on,
truncated, only to the child whose digit matches it). -/
def generate_codes_v3_fuel : Nat → Nat → List Nat → Option (List Nat) → List Nat →
    Except PyErr (List (List Nat))
  | 0, _, _, _, _ => .error .fuelOut
  | fuel + 1, ncodes, code_start, code_end, prefixe =>
    if ncodes = 0 then .ok []
    else
      let d1 := code_start.headD 0
      let endList := code_end.getD []
      let endTruthy := !endList.isEmpty
      let e1 := if endTruthy then endList.headD 0 else 255
      let nDirect : Int := (e1 : Int) - (d1 + 1) + 1
      do
        let arrangement : Except PyErr (List Nat × (Nat → Nat) × Nat) :=
          if nDirect ≥ (ncodes : Int) then
            if nDirect = (ncodes : Int) then
              pure (List.range' (d1 + 1) (e1 - d1), fun _ => 0, 0)
            else do
              let idxs ← simple_distribute_indices ncodes (d1 + 1) e1
              pure (idxs.dedup, fun _ => 0, 0)
          else
            let pond0 : Nat → ℚ := fun _ => 1
            let pond1 :=
              if code_start.length > 1 then
                Function.update pond0 e1 ((256 - (code_start.getD 1 0 : ℚ)) / 256)
              else pond0
            let pond2 :=
              if endTruthy ∧ endList.length > 1 then
                Function.update pond1 e1 (((endList.getD 1 0 : ℚ) - 0) / 256)
              else pond1
            let longerMax :=
              if endTruthy then (if endList.length > 1 then e1 else e1 - 1) else e1
            do
              let (longer, s) ← ponderated_distribute_indices
                ((ncodes : Int) - nDirect).toNat d1 longerMax pond2
              pure (List.range' (d1 + 1) (e1 - d1), longer, s)
        let (direct, longer, longerSum) ← arrangement
        if longerSum + direct.length = ncodes then
          let parts ← (List.range' d1 (e1 + 1 - d1)).mapM (fun c => do
            let pre := prefixe ++ [c]
            let fromDirect := if c ∈ direct then [pre] else []
            if longer c ≠ 0 then do
              let sub ← generate_codes_v3_fuel fuel (longer c)
                (if ¬ code_start.isEmpty ∧ c = d1 then code_start.tail else [])
                (if endTruthy ∧ c = e1 then some endList.tail else none)
                pre
              pure (fromDirect ++ sub)
            else pure fromDirect)
          pure parts.flatten
        else .error .assertFail

/-- `OrderBitField.n_between` from `orderbitfield.py`: the body is
`raise NotImplementedError` (a `TODO` comment marks the algorithm as not
yet written), so every call errors regardless of the arguments. -/
def OrderBitField_n_between (n : Nat) (start : List Nat) (e : Option (List Nat)) :
    Except PyErr (List (List Nat)) :=
  .error .notImplErr

/-- `OrderBitField.n_initial` from `orderbitfield.py`: builds the zero key
(`cls(_BYTES_ZERO)`, warning suppressed) and delegates to `n_between`. -/
def OrderBitField_n_initial (n : Nat) : Except PyErr (List (List Nat)) :=
  OrderBitField_n_between n (OrderBitField_new [0]) none

/-- `self.ljust(self.max_size, _BYTES_ZERO)`: right-pad with zero bytes up to
width `w` (no-op when already at least that long). -/
def padTo (x : List Nat) (w : Nat) : List Nat :=
  x ++ List.replicate (w - x.length) 0

/-- `BoundOrderBitField.__new__` from `orderbitfield.py`: raise the dedicated
size exception when the raw value exceeds `max_size`, then defer to
`OrderBitField.__new__` (trailing-zero stripping). -/
def BoundOrderBitField_new (max_size : Nat) (val : List Nat) : Except PyErr (List Nat) :=
  if max_size < val.length then .error .sizeErr else .ok (OrderBitField_new val)

/-- `BoundOrderBitField.__add__` from `orderbitfield.py`.  `x` is a bound key
of declared width `wx`; `y` is the other key with `wy = some w` when it is
bound of width `w` and `none` when unbound.  The left operand is
right-padded with zero bytes to `wx` and the right operand's bytes are
appended; when `y` is bound the result is built by the bound constructor
with `max_size = wx + w` (so it carries that declared width), otherwise by
the plain `OrderBitField` constructor with no bound. -/
def BoundOrderBitField_add (x : List Nat) (wx : Nat) (y : List Nat) (wy : Option Nat) :
    Except PyErr (List Nat × Option Nat) :=
  match wy with
  | some w =>
      (BoundOrderBitField_new (wx + w) (padTo x wx ++ y)).map (fun v => (v, some (wx + w)))
  | none => .ok (OrderBitField_new (padTo x wx ++ y), none)

/-- The attribute names defined in the body of `class OrderBitField` in
`orderbitfield.py` (methods, properties and slots), transcribed from the
source.  There is no attribute named `"initial"`. -/
def orderBitFieldClassAttrs : List String :=
  ["__slots__", "__new__", "val", "__repr__", "between", "before", "after",
   "n_between", "n_initial", "__add__", "__radd__"]

/-- The public attribute names of the Python builtin `bytes` type (the base
class of `OrderBitField`), from `dir(bytes)`; attribute lookup on
`OrderBitField` falls back to these.  None of them is `"initial"` (nor is
any dunder of `bytes`, which are omitted here). -/
def bytesTypeAttrs : List String :=
  ["capitalize", "center", "count", "decode", "endswith", "expandtabs",
   "find", "fromhex", "hex", "index", "isalnum", "isalpha", "isascii",
   "isdigit", "islower", "isspace", "istitle", "isupper", "join", "ljust",
   "lower", "lstrip", "maketrans", "partition", "removeprefix",
   "removesuffix", "replace", "rfind", "rindex", "rjust", "rpartition",
   "rsplit", "rstrip", "split", "splitlines", "startswith", "strip",
   "swapcase", "title", "translate", "upper", "zfill"]

/-- The bulk-constructor attributes of `OrderBitField` that take a count and
return a sequence of keys, as (name, function) pairs transcribed from the
class body: the only such constructor is `n_initial`.  (The class defines
no attribute named `"initial"`; see `orderBitFieldClassAttrs` and
`bytesTypeAttrs`.) -/
def orderBitFieldCountConstructors : List (String × (Nat → Except PyErr (List (List Nat)))) :=
  [("n_initial", OrderBitField_n_initial)]

/-- Evaluating `OrderBitField.<name>(n)`: attribute lookup on the class
(`AttributeError` when the name is defined neither by the class body nor by
`bytes`), then the call. -/
def callOrderBitFieldAttr (name : String) (n : Nat) : Except PyErr (List (List Nat)) :=
  match orderBitFieldCountConstructors.lookup name with
  | some f => f n
  | none => .error .attrErr

/-- `MappingBasedReorderableContainer.__init__` from `container.py`:
`dict(zip(elements, OrderBitField.initial(len(elements))))`.  Python
evaluates `OrderBitField.initial` (an attribute lookup) before any zipping
or iteration happens, so the embedding performs the lookup-and-call first
and zips afterwards. -/
def mappingContainer_init (elements : List Nat) : Except PyErr (List (Nat × List Nat)) :=
  (callOrderBitFieldAttr "initial" elements.length).map (fun ks => elements.zip ks)

/-- `MappingBasedReorderableContainer.recompute` from `container.py`:
`dict(zip(self, OrderBitField.initial(len(self))))`.  As in `__init__`,
the `OrderBitField.initial` lookup is evaluated before `iter(self)` is
ever invoked (so the key-sorted iteration of the store never runs and is
irrelevant here); the embedding keeps the store's elements in place. -/
def mappingContainer_recompute (store : List (Nat × List Nat)) :
    Except PyErr (List (Nat × List Nat)) :=
  (callOrderBitFieldAttr "initial" store.length).map
    (fun ks => (store.map Prod.fst).zip ks)

/-- `generate_codes_v3` with enough fuel for any terminating run reachable in
the theorems below (each recursion step strictly shortens a boundary or
strictly decreases the requested count before the same boundary shape can
recur, so the chosen budget dominates the actual depth). -/
def generate_codes_v3 (ncodes : Nat) (code_start : List Nat)
    (code_end : Option (List Nat)) (prefixe : List Nat) :
    Except PyErr (List (List Nat)) :=
  generate_codes_v3_fuel
    (ncodes + code_start.length + (code_end.getD []).length + 600)
    ncodes code_start code_end prefixe

/-! ## Normalization lemmas -/

theorem dropWhile_zeros_replicate_append (k : Nat) (t : List Nat) :
    List.dropWhile (· == 0) (List.replicate k 0 ++ t) = List.dropWhile (· == 0) t := by
  induction k with
  | zero => rfl
  | succ k ih => simpa [List.replicate_succ, List.dropWhile_cons] using ih

theorem rstripZeros_append_replicate (s : List Nat) (k : Nat) :
    rstripZeros (s ++ List.replicate k 0) = rstripZeros s := by
  simp [rstripZeros, List.reverse_append, List.reverse_replicate,
    dropWhile_zeros_replicate_append]

theorem dropWhile_dropWhile (p : Nat → Bool) (l : List Nat) :
    List.dropWhile p (List.dropWhile p l) = List.dropWhile p l := by
  induction l with
  | nil => rfl
  | cons a l ih =>
      by_cases h : p a
      · simp [List.dropWhile_cons, h, ih]
      · simp [List.dropWhile_cons, h]

theorem rstripZeros_idem (s : List Nat) :
    rstripZeros (rstripZeros s) = rstripZeros s := by
  simp [rstripZeros, List.reverse_reverse, dropWhile_dropWhile]

theorem dropWhile_length_le (p : Nat → Bool) (l : List Nat) :
    (List.dropWhile p l).length ≤ l.length := by
  induction l with
  | nil => simp
  | cons a l ih =>
      by_cases h : p a
      · simp only [List.dropWhile_cons, h, if_true, List.length_cons]
        omega
      · simp [List.dropWhile_cons, h]

theorem dropWhile_eq_self_head (p : Nat → Bool) (c : Nat) (cs : List Nat)
    (h : List.dropWhile p (c :: cs) = c :: cs) : p c = false := by
  by_contra hc
  rw [Bool.not_eq_false] at hc
  rw [List.dropWhile_cons, if_pos hc] at h
  have hle := dropWhile_length_le p cs
  have hlen := congrArg List.length h
  simp at hlen
  omega

/-- Appending a normalized non-sentinel key to anything leaves nothing for
the trailing-zero strip to remove. -/
theorem rstripZeros_append_of_norm (t y : List Nat)
    (hnorm : rstripZeros y = y) (hne : y ≠ []) :
    rstripZeros (t ++ y) = t ++ y := by
  have hrev : List.dropWhile (· == 0) y.reverse = y.reverse := by
    have h := congrArg List.reverse hnorm
    simpa [rstripZeros] using h
  obtain ⟨c, cs, hcs⟩ : ∃ c cs, y.reverse = c :: cs := by
    cases hy : y.reverse with
    | nil =>
        exact absurd (by simpa using congrArg List.reverse hy) hne
    | cons c cs => exact ⟨c, cs, rfl⟩
  rw [hcs] at hrev
  have hc : (c == 0) = false := dropWhile_eq_self_head _ c cs hrev
  have hyval : (c :: cs).reverse = y := by rw [← hcs, List.reverse_reverse]
  calc rstripZeros (t ++ y)
      = (List.dropWhile (· == 0) (c :: (cs ++ t.reverse))).reverse := by
        simp [rstripZeros, List.reverse_append, hcs]
    _ = (c :: (cs ++ t.reverse)).reverse := by
        rw [List.dropWhile_cons, hc]
        simp
    _ = t ++ y := by
        rw [← hyval]
        simp

theorem bytesLt_append_right (x l : List Nat) (h : l ≠ []) :
    bytesLt x (x ++ l) = true := by
  induction x with
  | nil =>
      cases l with
      | nil => exact absurd rfl h
      | cons a t => rfl
  | cons a t ih => simpa [bytesLt, List.cons_append] using ih

/-! ## Theorems about the claims -/

/-- **C8**: constructing an `OrderBitField` from a symbol sequence `s`
followed by `k` trailing zero symbols yields the same stored value as
constructing it from `s` with its trailing zeros removed; the stored binary
form is always the trailing-zero-stripped sequence, and construction is
idempotent under this normalization. -/
theorem C8_idempotent_normalization (s : List Nat) (k : Nat) :
    OrderBitField_new (s ++ List.replicate k 0) = OrderBitField_new (rstripZeros s) ∧
    OrderBitField_new s = rstripZeros s ∧
    OrderBitField_new (OrderBitField_new s) = OrderBitField_new s := by
  refine ⟨?_, rfl, rstripZeros_idem s⟩
  show rstripZeros (s ++ List.replicate k 0) = rstripZeros (rstripZeros s)
  rw [rstripZeros_append_replicate, rstripZeros_idem]

/-- **C1** (the claim is violated by the code): on the valid boundaries
`start = b""` (unbounded below), `end = b"\x01"`, with `n = 1`, the code
generator emits the single code `b"\x01"`, which is **equal to** `end`
rather than strictly below it: the direct-slot range `[d1+1, e1]` includes
`e1` even when `end` has no second symbol. -/
theorem C1_generate_emits_end :
    generate_codes_v3 1 [] (some [1]) [] = .ok [[1]] ∧
    bytesLt [1] [1] = false := by
  exact ⟨rfl, rfl⟩

/-- **C2** (the claim is violated by the code): for `a = OrderKey([5])` and
`b = OrderKey([5, 10])` — valid keys with `a < b` and `a` a strict prefix
of `b` — `between(a, b)` returns `OrderKey([5])`, i.e. `a` itself, not a
key strictly between the two: in the strict-prefix branch the source
returns `start[:i] + [b[i+1] // 2]` with `i = len(start) - 1`, dropping the
last symbol of `a`. -/
theorem C2_between_prefix_bug :
    OrderBitField_between [5] [5, 10] = .ok [5] ∧
    bytesLt [5] [5, 10] = true ∧
    bytesLt [5] [5] = false := by
  exact ⟨rfl, rfl, rfl⟩

/-- **C3** (the claim is violated by the code): `OrderBitField.n_between`
raises `NotImplementedError` on every call — in particular `n = 0` with
valid open boundaries raises instead of yielding an empty sequence. -/
theorem C3_n_between_not_implemented :
    (∀ (n : Nat) (s : List Nat) (e : Option (List Nat)),
      OrderBitField_n_between n s e = .error .notImplErr) ∧
    OrderBitField_n_between 0 [1] none = .error .notImplErr := by
  exact ⟨fun _ _ _ => rfl, rfl⟩

/-- **C5** (the claim is violated by the code): the top-level call
`generate_codes_v3(1, b"\x05", b"\x05\x01", b"")` has `n = 1 ≥ 1` and valid
boundaries (`b"\x05" < b"\x05\x01"`), yet it invokes
`_ponderated_distribute_indices(1, 5, 5, …)`, whose precondition assertion
`mn < mx` fails (`5 < 5`), so the generator dies with `AssertionError`
instead of satisfying all its internal assertions. -/
theorem C5_assertion_violated :
    generate_codes_v3 1 [5] (some [5, 1]) [] = .error .assertFail ∧
    bytesLt [5] [5, 1] = true ∧
    ponderated_distribute_indices 1 5 5
      (Function.update (fun _ => (1 : ℚ)) 5 (((1 : ℚ) - 0) / 256)) = .error .assertFail := by
  refine ⟨rfl, rfl, ?_⟩
  simp [ponderated_distribute_indices]

/-- **C6** (the claim is violated by the code): `orderbitfield.py` sets
`_MAX_BYTE = 127` (its comment reads "maximum value of a byte") and hence
`_MAGIC_MIDDLE = 63`, not the 256-symbol alphabet the claim assumes, so
`before(OrderKey([1]))` returns `OrderKey([0, 63])` (not `[0, 128]`) and
`after(OrderKey([255]))` returns `OrderKey([255, 63])` (not `[255, 128]`);
only `before(OrderKey([10])) = OrderKey([5])` matches.  The sibling
functions of `deps.py`, which do use `MAX_BYTE = 255` / `MAGIC_MIDDLE =
128`, produce exactly the claimed values. -/
theorem C6_magic_middle_constants :
    OrderBitField_before [10] = .ok [5] ∧
    OrderBitField_before [1] = .ok [0, 63] ∧ ([0, 63] : List Nat) ≠ [0, 128] ∧
    OrderBitField_after [255] = [255, 63] ∧ ([255, 63] : List Nat) ≠ [255, 128] ∧
    simple_before [1] = .ok [0, 128] ∧
    simple_after [255] = [255, 128] := by
  refine ⟨rfl, rfl, by decide, rfl, by decide, rfl, rfl⟩

theorem findDiffIdx_self (x : List Nat) : findDiffIdx x x = none := by
  induction x with
  | nil => rfl
  | cons a t ih => simp [findDiffIdx, ih]

/-- **C7 counterexample**: `between(start, end)` with
`start = OrderKey([6]) > end = OrderKey([5])` does **not** raise: it
returns `OrderKey([5, 63])`.  The source never validates `start ≥ end`, so
the claim that `between` raises whenever `start ≥ end` is false. -/
theorem C7_between_no_validation :
    OrderBitField_between [6] [5] = .ok [5, 63] ∧
    bytesLt [5] [6] = true := by
  exact ⟨rfl, rfl⟩

/-- **C7 amended**: `before(x)` raises `ValueError` when `x` is the zero
sentinel (empty or all-zero `x`); `between(start, end)` raises when
`start == end` (an `IndexError` from the past-the-end access, or a
`NameError` on the empty key) — but for `start > end` differing at some
position it silently returns a value (see `C7_between_no_validation`), so
"raises whenever `start ≥ end`" only holds for the equality case. -/
theorem C7_invalid_construction_amended :
    (∀ x : List Nat, (∀ b ∈ x, b = 0) → OrderBitField_before x = .error .valueErr) ∧
    (∀ x : List Nat,
      OrderBitField_between x x =
        .error (if x.isEmpty then PyErr.nameErr else PyErr.indexErr)) ∧
    (OrderBitField_between [6] [5]).isOk = true := by
  refine ⟨?_, ?_, rfl⟩
  · intro x hx
    have hnone : firstPosIdx x = none := by
      induction x with
      | nil => rfl
      | cons a t ih =>
          have ha : a = 0 := hx a (by simp)
          have ht := ih (fun b hb => hx b (by simp [hb]))
          simp [firstPosIdx, ha, ht]
    simp [OrderBitField_before, hnone]
  · intro x
    cases x with
    | nil => rfl
    | cons a t =>
        have hnone : (a :: t)[(min (a :: t).length (a :: t).length - 1) + 1]? =
            (none : Option Nat) := by
          apply List.getElem?_eq_none
          simp
        simp only [OrderBitField_between, findDiffIdx_self, List.isEmpty_cons]
        simp [hnone]

/-- Witness for `C7_invalid_construction_amended` at concrete inputs. -/
theorem C7_invalid_construction_amended_witness :
    OrderBitField_before [0, 0] = .error .valueErr ∧
    OrderBitField_between [9] [9] = .error .indexErr := by
  constructor
  · exact C7_invalid_construction_amended.1 [0, 0] (by decide)
  · have h := C7_invalid_construction_amended.2.1 [9]
    simpa using h

/-- **C9 counterexample**: with `x = OrderKey([5])` bound to width `wx = 2`
and `y` the (unbound) zero-sentinel key (empty symbol sequence), `x + y`
normalizes back to `[5]` — equal to `x`, not lexicographically strictly
greater than `x` — because the zero padding is stripped again by the
constructor.  So the claim's "strictly greater than `x` alone" fails for
the sentinel `y`. -/
theorem C9_concat_sentinel :
    BoundOrderBitField_add [5] 2 [] none = .ok ([5], none) ∧
    bytesLt [5] [5] = false := by
  exact ⟨rfl, rfl⟩

/-- **C9 amended**: for every bound key `x` of declared width `wx` and every
key `y` that is *not* the zero sentinel (normalized and non-empty), the
concatenation `x + y` stores exactly `x` right-padded with zero symbols to
`wx` followed by `y`'s symbols, is lexicographically strictly greater than
`x` alone, and carries declared width `wx + wy` when `y` is bound of width
`wy` (no declared width when `y` is unbound).  When `y` is the zero
sentinel the stored value is just `x` (see `C9_concat_sentinel`). -/
theorem C9_concatenation_amended (x : List Nat) (wx : Nat) (y : List Nat) (wy : Nat)
    (hx : x.length ≤ wx) (hy : y.length ≤ wy)
    (hnorm : rstripZeros y = y) (hne : y ≠ []) :
    BoundOrderBitField_add x wx y (some wy) = .ok (padTo x wx ++ y, some (wx + wy)) ∧
    BoundOrderBitField_add x wx y none = .ok (padTo x wx ++ y, none) ∧
    bytesLt x (padTo x wx ++ y) = true := by
  have hval : OrderBitField_new (padTo x wx ++ y) = padTo x wx ++ y :=
    rstripZeros_append_of_norm _ y hnorm hne
  have hlen : (padTo x wx ++ y).length ≤ wx + wy := by
    simp only [padTo, List.length_append, List.length_replicate]
    omega
  refine ⟨?_, ?_, ?_⟩
  · have hcond : ¬ (wx + wy < (padTo x wx ++ y).length) := Nat.not_lt.mpr hlen
    simp only [BoundOrderBitField_add, BoundOrderBitField_new]
    rw [if_neg hcond]
    simp [Except.map, hval]
  · simp [BoundOrderBitField_add, hval]
  · have hsplit : padTo x wx ++ y = x ++ (List.replicate (wx - x.length) 0 ++ y) := by
      simp [padTo]
    rw [hsplit]
    apply bytesLt_append_right
    cases y with
    | nil => exact absurd rfl hne
    | cons a t => simp

/-- Witness for `C9_concatenation_amended` at concrete inputs. -/
theorem C9_concatenation_amended_witness :
    BoundOrderBitField_add [5] 2 [7] (some 3) = .ok ([5, 0, 7], some 5) ∧
    BoundOrderBitField_add [5] 2 [7] none = .ok ([5, 0, 7], none) ∧
    bytesLt [5] [5, 0, 7] = true := by
  have h := C9_concatenation_amended [5] 2 [7] 3
    (by decide) (by decide) (by decide) (by decide)
  exact ⟨h.1, h.2.1, h.2.2⟩

/-- **C10**: `MappingBasedReorderableContainer` construction raises
`AttributeError` for every argument list, and so does `recompute()` on any
store, because both evaluate `OrderBitField.initial` — an attribute that
exists neither in the class body of `OrderBitField` nor on `bytes`; the
bulk constructor is named `n_initial`, and that one raises
`NotImplementedError` via `n_between`. -/
theorem C10_container_attribute_error :
    (∀ elements : List Nat, mappingContainer_init elements = .error .attrErr) ∧
    (∀ store : List (Nat × List Nat), mappingContainer_recompute store = .error .attrErr) ∧
    "initial" ∉ orderBitFieldClassAttrs ∧
    "initial" ∉ bytesTypeAttrs ∧
    "n_initial" ∈ orderBitFieldClassAttrs ∧
    (∀ n : Nat, OrderBitField_n_initial n = .error .notImplErr) := by
  exact ⟨fun _ => rfl, fun _ => rfl, by decide, by decide, by decide, fun _ => rfl⟩

theorem two_thirds_gap (nd : Nat) (h : 2 ≤ nd) : (nd - 1) / 3 < (2 * nd - 1) / 3 := by
  rcases Nat.lt_or_ge nd 3 with h3 | h3
  · have h2 : nd = 2 := by omega
    subst h2
    decide
  · have key : (nd - 1 + 3) / 3 ≤ (2 * nd - 1) / 3 := Nat.div_le_div_right (by omega)
    have hd : (nd - 1 + 3) / 3 = (nd - 1) / 3 + 1 := Nat.add_div_right _ (by norm_num)
    omega

theorem sdi_one_eq (mn mx : Nat) (h : 1 ≤ mx + 1 - mn) :
    simple_distribute_indices 1 mn mx = .ok [mn + (mx + 1 - mn) / 2] := by
  simp only [simple_distribute_indices]
  rw [if_pos h]

theorem sdi_two_eq (mn mx : Nat) (h : 2 ≤ mx + 1 - mn) :
    simple_distribute_indices 2 mn mx =
      .ok [mn + (mx + 1 - mn - 1) / 3, mn + (2 * (mx + 1 - mn) - 1) / 3] := by
  simp only [simple_distribute_indices]
  rw [if_pos h]

theorem sdi_succ3_eq (m mn mx : Nat) (h : m + 3 ≤ mx + 1 - mn) :
    simple_distribute_indices (m + 3) mn mx = (do
      let lefts ← simple_distribute_indices (m + 2 - (m + 2) / 2) mn (mn + (mx + 1 - mn) / 2 - 1)
      let rights ← simple_distribute_indices ((m + 2) / 2) (mn + (mx + 1 - mn) / 2 + 1) mx
      pure (lefts ++ (mn + (mx + 1 - mn) / 2) :: rights)) := by
  simp only [simple_distribute_indices]
  rw [if_pos h]

/-- `_simple_distribute_indices` satisfies its contract whenever its
assertion precondition holds: the asserts pass, exactly `n` indices come
back, strictly increasing, all within `[mn, mx]`. -/
theorem sdi_spec : ∀ n mn mx : Nat, 1 ≤ n → n ≤ mx + 1 - mn →
    ∃ l, simple_distribute_indices n mn mx = .ok l ∧ l.length = n ∧
      l.Pairwise (· < ·) ∧ ∀ x ∈ l, mn ≤ x ∧ x ≤ mx := by
  intro n
  induction n using Nat.strong_induction_on with
  | _ n ih =>
    intro mn mx h1 h2
    have htri : n = 1 ∨ n = 2 ∨ 3 ≤ n := by omega
    rcases htri with rfl | rfl | h3
    · refine ⟨[mn + (mx + 1 - mn) / 2], sdi_one_eq mn mx h2, rfl,
        List.pairwise_singleton _ _, ?_⟩
      intro x hx
      simp only [List.mem_singleton] at hx
      subst hx
      omega
    · refine ⟨[mn + (mx + 1 - mn - 1) / 3, mn + (2 * (mx + 1 - mn) - 1) / 3],
        sdi_two_eq mn mx h2, rfl, ?_, ?_⟩
      · refine List.pairwise_cons.mpr ⟨?_, List.pairwise_singleton _ _⟩
        intro b hb
        simp only [List.mem_singleton] at hb
        subst hb
        have := two_thirds_gap (mx + 1 - mn) h2
        omega
      · intro x hx
        simp only [List.mem_cons, List.not_mem_nil, or_false] at hx
        rcases hx with h | h <;> subst h <;> omega
    obtain ⟨m, rfl⟩ : ∃ m, n = m + 3 := ⟨n - 3, by omega⟩
    obtain ⟨L, hLok, hLlen, hLpw, hLbd⟩ :=
      ih (m + 2 - (m + 2) / 2) (by omega) mn (mn + (mx + 1 - mn) / 2 - 1)
        (by omega) (by omega)
    obtain ⟨R, hRok, hRlen, hRpw, hRbd⟩ :=
      ih ((m + 2) / 2) (by omega) (mn + (mx + 1 - mn) / 2 + 1) mx
        (by omega) (by omega)
    refine ⟨L ++ (mn + (mx + 1 - mn) / 2) :: R, ?_, ?_, ?_, ?_⟩
    · rw [sdi_succ3_eq m mn mx h2, hLok, hRok]
      rfl
    · simp only [List.length_append, List.length_cons, hLlen, hRlen]
      omega
    · rw [List.pairwise_append]
      refine ⟨hLpw, List.pairwise_cons.mpr ⟨?_, hRpw⟩, ?_⟩
      · intro b hb
        have := hRbd b hb
        omega
      · intro a ha b hb
        have haL := hLbd a ha
        simp only [List.mem_cons] at hb
        rcases hb with rfl | hb
        · omega
        · have := hRbd b hb
          omega
    · intro x hx
      simp only [List.mem_append, List.mem_cons] at hx
      rcases hx with hx | hx | hx
      · have := hLbd x hx
        omega
      · subst hx
        omega
      · have := hRbd x hx
        omega

/-- **C4**: for every `lo ≤ hi` and `1 ≤ n ≤ hi - lo + 1` the uniform
distribution yields exactly `n` distinct integers of `[lo, hi]` in strictly
increasing order, chosen by exactly the source's rule: for `n = 1` the
midpoint `lo + (hi - lo + 1) / 2`; for `n = 2` the two points
`lo + (hi - lo) / 3` and `lo + (2 * (hi - lo + 1) - 1) / 3` (the 1/3 and
2/3 marks of the range, rounded down); for `n > 2` one pivot at the `n = 1`
position with `right = (n - 1) / 2` positions recursing strictly above it
and the other `n - 1 - right` strictly below it. -/
theorem C4_uniform_distribution (n lo hi : Nat) (h0 : lo ≤ hi) (h1 : 1 ≤ n)
    (h2 : n ≤ hi - lo + 1) :
    ∃ l, simple_distribute_indices n lo hi = .ok l ∧ l.length = n ∧
      l.Pairwise (· < ·) ∧ (∀ x ∈ l, lo ≤ x ∧ x ≤ hi) ∧
      (n = 1 → l = [lo + (hi - lo + 1) / 2]) ∧
      (n = 2 → l = [lo + (hi - lo) / 3, lo + (2 * (hi - lo + 1) - 1) / 3]) ∧
      (3 ≤ n →
        ∃ L R,
          simple_distribute_indices (n - 1 - (n - 1) / 2) lo
            (lo + (hi - lo + 1) / 2 - 1) = .ok L ∧
          simple_distribute_indices ((n - 1) / 2) (lo + (hi - lo + 1) / 2 + 1) hi = .ok R ∧
          l = L ++ (lo + (hi - lo + 1) / 2) :: R) := by
  have hsz : hi + 1 - lo = hi - lo + 1 := by omega
  have h2' : n ≤ hi + 1 - lo := by omega
  obtain ⟨l, hok, hlen, hpw, hbd⟩ := sdi_spec n lo hi h1 h2'
  refine ⟨l, hok, hlen, hpw, hbd, ?_, ?_, ?_⟩
  · rintro rfl
    have heq := sdi_one_eq lo hi (by omega)
    rw [heq] at hok
    have hv := Except.ok.inj hok
    rw [← hv, hsz]
  · rintro rfl
    have heq := sdi_two_eq lo hi (by omega)
    rw [heq] at hok
    have hv := Except.ok.inj hok
    rw [← hv, hsz]
    simp
  · intro h3
    obtain ⟨m, rfl⟩ : ∃ m, n = m + 3 := ⟨n - 3, by omega⟩
    obtain ⟨L, hLok, _, _, _⟩ :=
      sdi_spec (m + 2 - (m + 2) / 2) lo (lo + (hi + 1 - lo) / 2 - 1)
        (by omega) (by omega)
    obtain ⟨R, hRok, _, _, _⟩ :=
      sdi_spec ((m + 2) / 2) (lo + (hi + 1 - lo) / 2 + 1) hi
        (by omega) (by omega)
    have heq := sdi_succ3_eq m lo hi (by omega)
    rw [heq, hLok, hRok] at hok
    have hval : l = L ++ (lo + (hi + 1 - lo) / 2) :: R := by
      have := Except.ok.inj hok
      exact this.symm
    refine ⟨L, R, ?_, ?_, ?_⟩
    · rw [← hsz]
      exact hLok
    · rw [← hsz]
      exact hRok
    · rw [← hsz]
      exact hval

/-- Witness for `C4_uniform_distribution`: the concrete instance
`n = 3, lo = 0, hi = 255` used by `initial(3)` in the specification. -/
theorem C4_uniform_distribution_witness :
    simple_distribute_indices 3 0 255 = .ok [64, 128, 192] ∧
    (∃ l, simple_distribute_indices 3 0 255 = .ok l ∧ l.length = 3 ∧
      l.Pairwise (· < ·) ∧ ∀ x ∈ l, 0 ≤ x ∧ x ≤ 255) := by
  constructor
  · simp [simple_distribute_indices]
    rfl
  · obtain ⟨l, hok, hlen, hpw, hbd, _⟩ :=
      C4_uniform_distribution 3 0 255 (by decide) (by decide) (by decide)
    exact ⟨l, hok, hlen, hpw, hbd⟩
